import Mathlib

/-!
Verification of the VOC mean-average-precision evaluation core and the
metric classes in `dygraph/ppdet/metrics/metrics.py` of PaddleDetection.

Numeric values (box coordinates, scores, precisions, recalls) are embedded
as rationals.  `VOCMetric`, `ReIDMetric` and their operations are translated
from `metrics.py`; the `DetectionMAP` accumulator and `prune_zero_padding`
live in `map_utils.py`, which is not part of the sources under review, so
they are modelled from the specification (sections 3, 4.1, 4.2, 4.3).
-/

/-- An axis-aligned box: the coordinate quadruple (xmin, ymin, xmax, ymax). -/
structure Box where
  xmin : ℚ
  ymin : ℚ
  xmax : ℚ
  ymax : ℚ
deriving DecidableEq

/-- Curve interpolation mode of the integrator: 11-point or continuous. -/
inductive MapType where
  | elevenPoint
  | integral
deriving DecidableEq

/-- Configuration of the mAP engine, fixed at construction. -/
structure MapConfig where
  class_num : ℕ
  overlap_thresh : ℚ
  map_type : MapType
  is_bbox_normalized : Bool
  evaluate_difficult : Bool
deriving DecidableEq

/-- Python `int()` truncation toward zero, applied to a rational. -/
def pyInt (q : ℚ) : ℤ :=
  q.num / (q.den : ℤ)

/-- Length of a coordinate segment; for pixel (non-normalized) coordinates
the inclusive pixel count `b - a + 1` is used, for normalized coordinates
the plain difference.  Modelled from the spec: the matcher uses "an IoU (or
normalized-coordinate IoU) threshold". -/
def segLen (norm : Bool) (a b : ℚ) : ℚ :=
  if norm then b - a else b - a + 1

/-- Area of a box under the chosen coordinate convention (0 if degenerate). -/
def boxArea (norm : Bool) (b : Box) : ℚ :=
  if b.xmax < b.xmin ∨ b.ymax < b.ymin then 0
  else segLen norm b.xmin b.xmax * segLen norm b.ymin b.ymax

/-- Modelled from the spec: "IoU (Intersection over Union): ratio of
overlapping area to union area of two boxes" (glossary), computed in the
shared coordinate space. -/
def iou (norm : Bool) (a b : Box) : ℚ :=
  let ixmin := max a.xmin b.xmin
  let iymin := max a.ymin b.ymin
  let ixmax := min a.xmax b.xmax
  let iymax := min a.ymax b.ymax
  if ixmax < ixmin ∨ iymax < iymin then 0
  else
    let inter := segLen norm ixmin ixmax * segLen norm iymin iymax
    let uni := boxArea norm a + boxArea norm b - inter
    if uni ≤ 0 then 0 else inter / uni

/-- A prediction consumed by the matcher: class label, confidence score, box. -/
structure Detection where
  label : ℤ
  score : ℚ
  box : Box
deriving DecidableEq

/-- A ground-truth box as supplied to one `DetectionMAP.update` call. -/
structure GtIn where
  box : Box
  label : ℤ
  difficult : Bool
deriving DecidableEq

/-- Modelled from the spec (§3 GroundTruthBox): a ground-truth box with its
mutable per-evaluation-pass `matched` flag. -/
structure MGt where
  box : Box
  difficult : Bool
  matched : Bool
deriving DecidableEq

/-- Whether a ground-truth box counts toward the recall denominator:
difficult instances are excluded unless `evaluate_difficult` is set. -/
def gtCounts (evalDiff : Bool) (g : MGt) : Bool :=
  evalDiff || !g.difficult

/-- Modelled from the spec (§4.1): index and IoU of the unmatched
ground-truth box with the greatest IoU against `p` (earliest on ties);
`none` when every ground-truth box is already matched (or there are none). -/
def bestUnmatched (norm : Bool) (p : Box) : List MGt → Option (ℕ × ℚ)
  | [] => none
  | g :: gs =>
    match bestUnmatched norm p gs with
    | none => if g.matched then none else some (0, iou norm p g.box)
    | some (j, w) =>
      if g.matched then some (j + 1, w)
      else if iou norm p g.box < w then some (j + 1, w)
      else some (0, iou norm p g.box)

/-- Mark the ground-truth box at index `i` as matched. -/
def markMatched (gts : List MGt) (i : ℕ) : List MGt :=
  match gts.get? i with
  | none => gts
  | some g => gts.set i { g with matched := true }

/-- Modelled from the spec (§4.1 Matcher): process one class's predictions in
the supplied order; each prediction is labeled true positive when the best
unmatched same-class ground-truth box reaches the overlap threshold (a match
to a difficult box is discarded when difficult instances are excluded),
false positive otherwise.  Emits the class's (score, is_true_positive)
record entries for one image. -/
def matchPreds (cfg : MapConfig) : List Detection → List MGt → List (ℚ × Bool)
  | [], _ => []
  | p :: ps, gts =>
    match bestUnmatched cfg.is_bbox_normalized p.box gts with
    | none => (p.score, false) :: matchPreds cfg ps gts
    | some (i, v) =>
      if cfg.overlap_thresh ≤ v then
        match gts.get? i with
        | none => (p.score, false) :: matchPreds cfg ps gts
        | some g =>
          if g.difficult && !cfg.evaluate_difficult then matchPreds cfg ps gts
          else (p.score, true) :: matchPreds cfg ps (gts.set i { g with matched := true })
      else (p.score, false) :: matchPreds cfg ps gts

/-- The arguments of one `DetectionMAP.update` call, as passed by
`VOCMetric.update`: predicted boxes, scores and labels, and one image's
ground-truth boxes, labels and optional difficulty flags. -/
structure DetArgs where
  bbox : List Box
  score : List ℚ
  label : List ℤ
  gt_box : List Box
  gt_label : List ℤ
  difficult : Option (List Bool)
deriving DecidableEq

/-- Modelled from the spec (§3 PerClassRecord, §4.2): the `DetectionMAP`
accumulator state — per-class running lists of (score, is_true_positive)
pairs, per-class ground-truth counts, and the mAP computed by `accumulate`
(absent until then). -/
structure DetectionMAP where
  cfg : MapConfig
  class_score_poss : List (List (ℚ × Bool))
  class_gt_counts : List ℕ
  mAP : Option ℚ
deriving DecidableEq

/-- A freshly reset accumulator: per-class records are empty, counts zero. -/
def detReset0 (cfg : MapConfig) : DetectionMAP :=
  { cfg := cfg
    class_score_poss := List.replicate cfg.class_num []
    class_gt_counts := List.replicate cfg.class_num 0
    mAP := none }

/-- Modelled from the spec (§4.2): `reset` clears all per-class state. -/
def detReset (s : DetectionMAP) : DetectionMAP :=
  detReset0 s.cfg

/-- The class-`c` predictions of one image, in the supplied order. -/
def classPreds (c : ℕ) (preds : List Detection) : List Detection :=
  preds.filter (fun p => p.label = (c : ℤ))

/-- The class-`c` ground-truth boxes of one image, all initially unmatched. -/
def classMGts (c : ℕ) (gts : List GtIn) : List MGt :=
  (gts.filter (fun g => g.label = (c : ℤ))).map
    (fun g => { box := g.box, difficult := g.difficult, matched := false })

/-- The (score, is_true_positive) entries one image adds to class `c`. -/
def imageClassRecord (cfg : MapConfig) (c : ℕ) (preds : List Detection)
    (gts : List GtIn) : List (ℚ × Bool) :=
  matchPreds cfg (classPreds c preds) (classMGts c gts)

/-- The ground-truth instances one image adds to class `c`'s total. -/
def imageClassGtCount (cfg : MapConfig) (c : ℕ) (gts : List GtIn) : ℕ :=
  (classMGts c gts).countP (fun g => gtCounts cfg.evaluate_difficult g)

/-- The predictions of one `DetectionMAP.update` call, zipped from the
parallel label/score/box arrays (truncating to the shortest, as `zip`). -/
def updatePreds (a : DetArgs) : List Detection :=
  (a.label.zip (a.score.zip a.bbox)).map
    (fun x => { label := x.1, score := x.2.1, box := x.2.2 })

/-- The ground-truth boxes of one `DetectionMAP.update` call; an absent
difficulty array means no instance is difficult. -/
def updateGts (a : DetArgs) : List GtIn :=
  let diff := a.difficult.getD (List.replicate a.gt_box.length false)
  (a.gt_box.zip (a.gt_label.zip diff)).map
    (fun x => { box := x.1, label := x.2.1, difficult := x.2.2 })

/-- Modelled from the spec (§4.2 Accumulator contract): `update` appends one
image's labeled results into each per-class record and increments each
per-class ground-truth total. -/
def detMapUpdate (s : DetectionMAP) (a : DetArgs) : DetectionMAP :=
  let preds := updatePreds a
  let gts := updateGts a
  { s with
    class_score_poss := (List.range s.cfg.class_num).map (fun c =>
      s.class_score_poss.getD c [] ++ imageClassRecord s.cfg c preds gts)
    class_gt_counts := (List.range s.cfg.class_num).map (fun c =>
      s.class_gt_counts.getD c 0 + imageClassGtCount s.cfg c gts) }

/-- Stable descending insertion by score: the new entry goes in front of the
first entry whose score is not greater, so equal scores keep their original
insertion order (the spec's stable tie-break, §4.2). -/
def insertDesc (x : ℚ × Bool) : List (ℚ × Bool) → List (ℚ × Bool)
  | [] => [x]
  | y :: ys => if x.1 < y.1 then y :: insertDesc x ys else x :: y :: ys

/-- Stable sort of a per-class record by descending score. -/
def sortDesc (l : List (ℚ × Bool)) : List (ℚ × Bool) :=
  l.foldr insertDesc []

/-- Modelled from the spec (§4.2): cumulative true/false positives at each
rank of the (already sorted) record, rendered as (recall, precision) points
with recall = cumulative_TP / total_ground_truth and precision =
cumulative_TP / (cumulative_TP + cumulative_FP). -/
def prPoints (totalGt : ℕ) : ℕ → ℕ → List (ℚ × Bool) → List (ℚ × ℚ)
  | _, _, [] => []
  | tp, fp, x :: rest =>
    let tp' := if x.2 then tp + 1 else tp
    let fp' := if x.2 then fp else fp + 1
    ((tp' : ℚ) / (totalGt : ℚ), (tp' : ℚ) / ((tp' : ℚ) + (fp' : ℚ)))
      :: prPoints totalGt tp' fp' rest

/-- The maximum precision observed at any recall ≥ r (zero if none). -/
def maxPrecAt (r : ℚ) (pts : List (ℚ × ℚ)) : ℚ :=
  ((pts.filter (fun x => r ≤ x.1)).map Prod.snd).foldr max 0

/-- Modelled from the spec (§4.3, 11-point interpolation): average, over the
11 recall thresholds 0.0, 0.1, ..., 1.0, of the maximum precision observed
at any recall ≥ the threshold. -/
def ap11 (pts : List (ℚ × ℚ)) : ℚ :=
  ((List.range 11).map (fun j : ℕ => maxPrecAt ((j : ℚ) / 10) pts)).sum / 11

/-- Modelled from the spec (§4.3, continuous mode): replace each precision
with the maximum of itself and all precision values to its right (the
monotonic envelope over equal-or-higher recall). -/
def envPrec : List (ℚ × ℚ) → List (ℚ × ℚ)
  | [] => []
  | x :: rest =>
    let e := envPrec rest
    (x.1, (e.map Prod.snd).foldr max x.2) :: e

/-- Modelled from the spec (§4.3, continuous mode): walk the curve in
increasing-recall order and sum precision × (recall − previous recall) over
the points where the recall changes. -/
def integrate : ℚ → ℚ → List (ℚ × ℚ) → ℚ
  | _, acc, [] => acc
  | prev, acc, x :: rest =>
    if x.1 ≠ prev then integrate x.1 (acc + x.2 * (x.1 - prev)) rest
    else integrate prev acc rest

/-- Modelled from the spec (§4.2, §4.3): the average precision of one class
from its finalized record — sort by descending score, derive the
precision/recall points, then integrate under the configured mode. -/
def classAP (cfg : MapConfig) (totalGt : ℕ) (recs : List (ℚ × Bool)) : ℚ :=
  let pts := prPoints totalGt 0 0 (sortDesc recs)
  match cfg.map_type with
  | .elevenPoint => ap11 pts
  | .integral => integrate 0 0 (envPrec pts)

/-- The average precision the engine produces for class `c`. -/
def perClassAP (s : DetectionMAP) (c : ℕ) : ℚ :=
  classAP s.cfg (s.class_gt_counts.getD c 0) (s.class_score_poss.getD c [])

/-- Modelled from the spec (§4.3): mean average precision — running over the
classes, skip those without ground-truth instances, add up the remaining
average precisions and count them, then divide (0 when no class counts). -/
def computeMAP (s : DetectionMAP) : ℚ :=
  let r := (List.range s.cfg.class_num).foldl
    (fun (acc : ℚ × ℕ) c =>
      if s.class_gt_counts.getD c 0 = 0 then acc
      else (acc.1 + perClassAP s c, acc.2 + 1))
    (0, 0)
  if r.2 = 0 then 0 else r.1 / (r.2 : ℚ)

/-- Modelled from the spec (§4.2): `accumulate` finalizes the records into
the mAP; the running per-class lists themselves are left in place. -/
def detAccumulate (s : DetectionMAP) : DetectionMAP :=
  { s with mAP := some (computeMAP s) }

/-- `DetectionMAP.get_map`: the computed mAP, absent before `accumulate`
(where the source raises). -/
def detGetMap (s : DetectionMAP) : Option ℚ :=
  s.mAP

/-- Run a sequence of `DetectionMAP.update` calls. -/
def procImgs (s : DetectionMAP) (imgs : List DetArgs) : DetectionMAP :=
  imgs.foldl detMapUpdate s

/-- Merging two independently accumulated record sets: concatenate the
per-class lists and sum the per-class ground-truth counts (§5). -/
def mergeRecords (s t : DetectionMAP) : DetectionMAP :=
  { cfg := s.cfg
    class_score_poss := (List.range s.cfg.class_num).map (fun c =>
      s.class_score_poss.getD c [] ++ t.class_score_poss.getD c [])
    class_gt_counts := (List.range s.cfg.class_num).map (fun c =>
      s.class_gt_counts.getD c 0 + t.class_gt_counts.getD c 0)
    mAP := none }

/-- Rendering of a rational with two decimal places, as Python format
`{:.2f}` does (rounding to the nearest hundredth). -/
def fmt2 (q : ℚ) : String :=
  let n : ℤ := round (q * 100)
  let a := n.natAbs
  let frac := a % 100
  (if n < 0 then "-" else "")
    ++ toString (a / 100) ++ "."
    ++ (if frac < 10 then "0" else "") ++ toString frac

/-- The configuration string of the interpolation mode. -/
def mapTypeName : MapType → String
  | .elevenPoint => "11point"
  | .integral => "integral"

/-- The `inputs` dict consumed by `VOCMetric.update`: per-image ground-truth
boxes, class ids, difficulty flags, and the optional per-image scale factor
(height, width). -/
structure VOCInputs where
  gt_bbox : List (List Box)
  gt_class : List (List ℤ)
  difficult : List (List Bool)
  scale_factor : Option (List (ℚ × ℚ))
deriving DecidableEq

/-- The `outputs` dict consumed by `VOCMetric.update`: the prediction matrix
(each row `[label, score, xmin, ymin, xmax, ymax]`) and the per-image
prediction counts. -/
structure VOCOutputs where
  bbox : List (List ℚ)
  bbox_num : List ℕ
deriving DecidableEq

/-- `gt_box / np.array([w, h, w, h])` for one box, with `(h, w)` the image's
scale factor row. -/
def divBox (hw : ℚ × ℚ) (b : Box) : Box :=
  { xmin := b.xmin / hw.2, ymin := b.ymin / hw.1
    xmax := b.xmax / hw.2, ymax := b.ymax / hw.1 }

/-- Modelled from the spec: `prune_zero_padding` (in `map_utils.py`, not
among the sources under review) drops the padding rows of one image's
ground truth; the spec's per-image ground-truth set has no padding rows, so
the arrays are truncated at the first all-zero box. -/
def pruneZeroPadding (gt_box : List Box) (gt_label : List ℤ)
    (difficult : Option (List Bool)) :
    List Box × List ℤ × Option (List Bool) :=
  let n := (gt_box.takeWhile (fun b => decide (b ≠ Box.mk 0 0 0 0))).length
  (gt_box.take n, gt_label.take n, difficult.map (fun d => d.take n))

/-- The guard of `VOCMetric.update`: whether the predicted bbox array with
its first two columns dropped has shape (1, 1). -/
def detBoxesShape11 (outputs : VOCOutputs) : Bool :=
  let bboxes := outputs.bbox.map (fun r => r.drop 2)
  bboxes.length = 1 && (bboxes.headD []).length = 1

/-- A row of the prediction matrix, columns 2 onward, as a box. -/
def rowToBox (r : List ℚ) : Box :=
  { xmin := r.getD 0 0, ymin := r.getD 1 0, xmax := r.getD 2 0, ymax := r.getD 3 0 }

/-- The per-image argument tuples `VOCMetric.update` passes to
`DetectionMAP.update`: for image `i`, the slice `[bbox_idx, bbox_idx +
bbox_num[i])` of the predictions, and the image's ground-truth boxes scaled
by `1 / [w, h, w, h]` and pruned of zero padding; the difficulty flags are
forwarded only when `evaluate_difficult` is off (`None` otherwise). -/
def vocUpdateArgs (evalDiff : Bool) (inputs : VOCInputs)
    (outputs : VOCOutputs) : List DetArgs :=
  let bboxes := outputs.bbox.map (fun r => r.drop 2)
  let scores := outputs.bbox.map (fun r => r.getD 1 0)
  let labels := outputs.bbox.map (fun r => pyInt (r.getD 0 0))
  let difficults : Option (List (List Bool)) :=
    if evalDiff then none else some inputs.difficult
  let sf := inputs.scale_factor.getD
    (List.replicate inputs.gt_bbox.length ((1 : ℚ), (1 : ℚ)))
  (List.range inputs.gt_bbox.length).map (fun i =>
    let bbox_idx := (outputs.bbox_num.take i).foldl (fun a b => a + b) 0
    let bbox_num := outputs.bbox_num.getD i 0
    let hw := sf.getD i (1, 1)
    let gt_box := (inputs.gt_bbox.getD i []).map (fun b => divBox hw b)
    let gt_label := inputs.gt_class.getD i []
    let difficult := difficults.map (fun ds => ds.getD i [])
    let pruned := pruneZeroPadding gt_box gt_label difficult
    { bbox := ((bboxes.drop bbox_idx).take bbox_num).map rowToBox
      score := (scores.drop bbox_idx).take bbox_num
      label := (labels.drop bbox_idx).take bbox_num
      gt_box := pruned.1
      gt_label := pruned.2.1
      difficult := pruned.2.2 })

/-- The state of a `VOCMetric`: the configuration fields stored on the
instance and its `DetectionMAP` accumulator (whose own configuration also
holds `class_num` and `is_bbox_normalized`). -/
structure VOCState where
  overlap_thresh : ℚ
  map_type : MapType
  evaluate_difficult : Bool
  detection_map : DetectionMAP
deriving DecidableEq

/-- `VOCMetric.__init__`: store the configuration, build the `DetectionMAP`
with the same configuration, and reset. -/
def vocInit (class_num : ℕ) (overlap_thresh : ℚ) (map_type : MapType)
    (is_bbox_normalized : Bool) (evaluate_difficult : Bool) : VOCState :=
  { overlap_thresh := overlap_thresh
    map_type := map_type
    evaluate_difficult := evaluate_difficult
    detection_map := detReset0
      { class_num := class_num
        overlap_thresh := overlap_thresh
        map_type := map_type
        is_bbox_normalized := is_bbox_normalized
        evaluate_difficult := evaluate_difficult } }

/-- The `overlap_thresh` default of `VOCMetric.__init__`. -/
def defaultOverlapThresh : ℚ := 0.5

/-- The `map_type` default of `VOCMetric.__init__`. -/
def defaultMapType : MapType := .elevenPoint

/-- `VOCMetric.reset`: reset the accumulator. -/
def vocReset (s : VOCState) : VOCState :=
  { s with detection_map := detReset s.detection_map }

/-- `VOCMetric.update`: return unchanged when the predicted bbox array has
shape (1, 1); otherwise run one `DetectionMAP.update` per image with the
sliced predictions and the scaled, pruned ground truth. -/
def vocUpdate (s : VOCState) (inputs : VOCInputs) (outputs : VOCOutputs) :
    VOCState :=
  if detBoxesShape11 outputs then s
  else
    { s with detection_map :=
        procImgs s.detection_map (vocUpdateArgs s.evaluate_difficult inputs outputs) }

/-- `VOCMetric.accumulate`: finalize the accumulator. -/
def vocAccumulate (s : VOCState) : VOCState :=
  { s with detection_map := detAccumulate s.detection_map }

/-- `VOCMetric.log`: `map_stat = 100. * get_map()` rendered as
`mAP({:.2f}, {}) = {:.2f}%`; absent when the mAP has not been computed
(where `get_map` raises in the source). -/
def vocLog (s : VOCState) : Option String :=
  (detGetMap s.detection_map).map (fun m =>
    "mAP(" ++ fmt2 s.overlap_thresh ++ ", " ++ mapTypeName s.map_type
      ++ ") = " ++ fmt2 (100 * m) ++ "%")

/-- `VOCMetric.get_results`: the body evaluates
`self.detection_map.get_map()` but has no return statement, so the call
returns `None` whenever `get_map` itself returns. -/
def vocGetResults (s : VOCState) : Option ℚ :=
  match detGetMap s.detection_map with
  | some _ => none
  | none => none

/-- One call on a `VOCMetric` instance after construction. -/
inductive VOCOp where
  | reset
  | update (inputs : VOCInputs) (outputs : VOCOutputs)
  | accumulate
  | log

/-- Apply one call to the instance state (`log` only reads the state). -/
def vocApply (s : VOCState) : VOCOp → VOCState
  | .reset => vocReset s
  | .update inputs outputs => vocUpdate s inputs outputs
  | .accumulate => vocAccumulate s
  | .log => s

/-- Apply a sequence of calls to the instance state. -/
def vocApplyAll (s : VOCState) (ops : List VOCOp) : VOCState :=
  ops.foldl vocApply s

/-- The state of a `ReIDMetric`: stored embeddings, id labels, and the
results dictionary filled by `accumulate`. -/
structure ReIDState where
  embedding : List (List ℚ)
  id_labels : List ℤ
  eval_results : List (String × String)

/-- `ReIDMetric.reset` (also run by `__init__`): clear everything. -/
def reidInit : ReIDState :=
  { embedding := [], id_labels := [], eval_results := [] }

/-- `ReIDMetric.update`: for each output row, split off the trailing id
label; append the feature/label pair only when the label differs from -1. -/
def reidUpdate (s : ReIDState) (outputs : List (List ℚ)) : ReIDState :=
  outputs.foldl (fun st out =>
    let feat := out.dropLast
    let label := pyInt (out.getLastD 0)
    if label ≠ -1 then
      { st with embedding := st.embedding ++ [feat]
                id_labels := st.id_labels ++ [label] }
    else st) s

/-- The assertion at the start of `ReIDMetric.accumulate`. -/
def reidAssertion (s : ReIDState) : Prop :=
  s.embedding.length = s.id_labels.length

/-- One call on a `ReIDMetric` instance that touches the stored lists. -/
inductive ReIDOp where
  | reset
  | update (outputs : List (List ℚ))

/-- Apply one call to the instance state. -/
def reidApply (s : ReIDState) : ReIDOp → ReIDState
  | .reset => reidInit
  | .update outputs => reidUpdate s outputs

/-- Apply a sequence of calls to the instance state. -/
def reidApplyAll (s : ReIDState) (ops : List ReIDOp) : ReIDState :=
  ops.foldl reidApply s

/-- The configuration fields of a `VOCMetric` instance: the three fields
stored on the instance itself and the accumulator's configuration (which
also carries `class_num` and `is_bbox_normalized`). -/
def vocConfig (s : VOCState) : ℚ × MapType × Bool × MapConfig :=
  (s.overlap_thresh, s.map_type, s.evaluate_difficult, s.detection_map.cfg)

/-- A one-class 11-point configuration used for concrete evaluations. -/
def c4Cfg : MapConfig :=
  { class_num := 1, overlap_thresh := 1/2, map_type := .elevenPoint
    is_bbox_normalized := false, evaluate_difficult := false }

/-- One image with one class-0 ground-truth box and one exactly matching
prediction of score 1/2. -/
def c4ImgA : DetArgs :=
  { bbox := [Box.mk 0 0 10 10], score := [1/2], label := [0]
    gt_box := [Box.mk 0 0 10 10], gt_label := [0], difficult := some [false] }

/-- One image with no ground truth and one class-0 prediction of score 1/2
(necessarily a false positive). -/
def c4ImgB : DetArgs :=
  { bbox := [Box.mk 0 0 10 10], score := [1/2], label := [0]
    gt_box := [], gt_label := [], difficult := some [] }

/-- A list of curve points whose recall coordinates start at or above
`prev` and never decrease. -/
def recMono : ℚ → List (ℚ × ℚ) → Prop
  | _, [] => True
  | prev, x :: rest => prev ≤ x.1 ∧ recMono x.1 rest

/-- The configuration of the accumulator is unchanged by `update`. -/
theorem cfg_detMapUpdate (s : DetectionMAP) (a : DetArgs) :
    (detMapUpdate s a).cfg = s.cfg := rfl

/-- The configuration of the accumulator is unchanged by any run of updates. -/
theorem cfg_procImgs (s : DetectionMAP) (imgs : List DetArgs) :
    (procImgs s imgs).cfg = s.cfg := by
  induction imgs generalizing s with
  | nil => rfl
  | cons a rest ih => exact (ih (detMapUpdate s a)).trans rfl

/-- The stored mAP is unchanged by `update`. -/
theorem mAP_detMapUpdate (s : DetectionMAP) (a : DetArgs) :
    (detMapUpdate s a).mAP = s.mAP := rfl

/-- The stored mAP is unchanged by any run of updates. -/
theorem mAP_procImgs (s : DetectionMAP) (imgs : List DetArgs) :
    (procImgs s imgs).mAP = s.mAP := by
  induction imgs generalizing s with
  | nil => rfl
  | cons a rest ih => exact (ih (detMapUpdate s a)).trans rfl

/-- C1: after `accumulate` has completed (so the accumulator holds a
computed mAP, as witnessed by `get_map` returning a value), a call to
`VOCMetric.get_results` nevertheless returns `None`: its body evaluates
`self.detection_map.get_map()` but never returns the value.  This
contradicts the documented contract that `get_results` returns the
evaluation output, so the missing `return` is a defect of the code. -/
theorem voc_get_results_returns_none (s : VOCState) :
    vocGetResults (vocAccumulate s) = none ∧
    (detGetMap (vocAccumulate s).detection_map).isSome = true := by
  constructor
  · rfl
  · rfl

/-- C3: calling `accumulate` a second time with no intervening `update` or
`reset` recomputes the mAP from the unchanged running records and stores
the identical value, so the state (and hence every result read from it) is
the same after the second call as after the first. -/
theorem voc_accumulate_idempotent (s : VOCState) :
    vocAccumulate (vocAccumulate s) = vocAccumulate s := rfl

/-- C7: on a state on which `accumulate` has completed, `log` emits exactly
the summary string `mAP(<overlap_thresh>, <curve_mode>) = <percentage>%`,
whose percentage is 100 times the computed mAP. -/
theorem voc_log_format (s : VOCState) :
    vocLog (vocAccumulate s)
      = some ("mAP(" ++ fmt2 s.overlap_thresh ++ ", " ++ mapTypeName s.map_type
          ++ ") = " ++ fmt2 (100 * computeMAP s.detection_map) ++ "%") := rfl

/-- C8: when the predicted bbox array (columns 2 onward) has shape (1, 1),
`VOCMetric.update` returns at once: the whole accumulation state is left
unchanged, whatever the ground-truth inputs contain. -/
theorem voc_update_shape11_noop (s : VOCState) (inputs : VOCInputs)
    (outputs : VOCOutputs) (h : detBoxesShape11 outputs = true) :
    vocUpdate s inputs outputs = s := by
  simp [vocUpdate, h]

/-- Witness for C8 at a concrete shape-(1,1) prediction array. -/
theorem voc_update_shape11_noop_witness :
    detBoxesShape11 (VOCOutputs.mk [[0, 0, 0]] [1]) = true ∧
    vocUpdate (vocInit 1 (1/2) .elevenPoint false false)
        (VOCInputs.mk [[Box.mk 0 0 4 4]] [[0]] [[false]] none)
        (VOCOutputs.mk [[0, 0, 0]] [1])
      = vocInit 1 (1/2) .elevenPoint false false :=
  ⟨by decide, voc_update_shape11_noop _ _ _ (by decide)⟩

/-- One call on a `VOCMetric` leaves every configuration field unchanged. -/
theorem vocConfig_vocApply (s : VOCState) (op : VOCOp) :
    vocConfig (vocApply s op) = vocConfig s := by
  cases op with
  | reset => rfl
  | update inputs outputs =>
      simp only [vocApply, vocUpdate]
      split
      · rfl
      · simp [vocConfig, cfg_procImgs]
  | accumulate => rfl
  | log => rfl

/-- C6: the configuration fixed by `VOCMetric.__init__` — number of
classes, overlap threshold, interpolation mode, `is_bbox_normalized`,
`evaluate_difficult` — is never modified by any later sequence of `reset`,
`update`, `accumulate` and `log` calls. -/
theorem voc_config_immutable (cn : ℕ) (ot : ℚ) (mt : MapType) (ibn ed : Bool)
    (ops : List VOCOp) :
    vocConfig (vocApplyAll (vocInit cn ot mt ibn ed) ops)
        = (ot, mt, ed, MapConfig.mk cn ot mt ibn ed) := by
  have step : ∀ (t : VOCState) (l : List VOCOp),
      vocConfig (vocApplyAll t l) = vocConfig t := by
    intro t l
    induction l generalizing t with
    | nil => rfl
    | cons op rest ih => exact (ih (vocApply t op)).trans (vocConfig_vocApply t op)
  exact (step _ ops).trans rfl

/-- One `ReIDMetric.update` call preserves the list invariant: the
embedding and id-label lists stay equally long and no stored label is -1. -/
theorem reid_update_inv (outputs : List (List ℚ)) (s : ReIDState)
    (h₁ : s.embedding.length = s.id_labels.length)
    (h₂ : s.id_labels.all (fun l => decide (l ≠ -1)) = true) :
    (reidUpdate s outputs).embedding.length = (reidUpdate s outputs).id_labels.length ∧
    (reidUpdate s outputs).id_labels.all (fun l => decide (l ≠ -1)) = true := by
  induction outputs generalizing s with
  | nil => exact ⟨h₁, h₂⟩
  | cons out rest ih =>
      have unf : reidUpdate s (out :: rest)
          = reidUpdate (if pyInt (out.getLastD 0) ≠ -1 then
              { s with embedding := s.embedding ++ [out.dropLast]
                       id_labels := s.id_labels ++ [pyInt (out.getLastD 0)] }
            else s) rest := rfl
      rw [unf]
      split
      next hcond =>
        refine ih _ ?_ ?_
        · simp [h₁]
        · rw [List.all_append, h₂]
          simpa using hcond
      next hcond => exact ih s h₁ h₂

/-- C9: after construction and any sequence of `reset` and `update` calls
on a `ReIDMetric`, the stored embedding list and id-label list have equal
length and no stored id label equals -1; in particular the assertion at the
start of `accumulate` holds. -/
theorem reid_invariant (ops : List ReIDOp) :
    (reidApplyAll reidInit ops).embedding.length
        = (reidApplyAll reidInit ops).id_labels.length ∧
    (reidApplyAll reidInit ops).id_labels.all (fun l => decide (l ≠ -1)) = true ∧
    reidAssertion (reidApplyAll reidInit ops) := by
  have step : ∀ (l : List ReIDOp) (t : ReIDState),
      t.embedding.length = t.id_labels.length →
      t.id_labels.all (fun x => decide (x ≠ -1)) = true →
      (reidApplyAll t l).embedding.length = (reidApplyAll t l).id_labels.length ∧
      (reidApplyAll t l).id_labels.all (fun x => decide (x ≠ -1)) = true := by
    intro l
    induction l with
    | nil => exact fun t h₁ h₂ => ⟨h₁, h₂⟩
    | cons op rest ih =>
        intro t h₁ h₂
        cases op with
        | reset => exact ih reidInit rfl rfl
        | update outputs =>
            obtain ⟨g₁, g₂⟩ := reid_update_inv outputs t h₁ h₂
            exact ih _ g₁ g₂
  obtain ⟨g₁, g₂⟩ := step ops reidInit rfl rfl
  exact ⟨g₁, g₂, g₁⟩

/-- C10: with `evaluate_difficult=True`, `VOCMetric.update` replaces the
difficulty flags by `None` before forwarding to the matcher, so two update
calls whose inputs differ only in their `difficult` field produce the same
accumulator state. -/
theorem voc_update_ignores_difficult (s : VOCState) (gb : List (List Box))
    (gc : List (List ℤ)) (d1 d2 : List (List Bool))
    (sf : Option (List (ℚ × ℚ))) (outputs : VOCOutputs)
    (h : s.evaluate_difficult = true) :
    vocUpdate s (VOCInputs.mk gb gc d1 sf) outputs
      = vocUpdate s (VOCInputs.mk gb gc d2 sf) outputs := by
  simp [vocUpdate, vocUpdateArgs, h]

/-- Witness for C10: flipping the difficulty flag of the single
ground-truth box changes nothing when `evaluate_difficult` is on. -/
theorem voc_update_ignores_difficult_witness :
    (vocInit 1 (1/2) .elevenPoint false true).evaluate_difficult = true ∧
    vocUpdate (vocInit 1 (1/2) .elevenPoint false true)
        (VOCInputs.mk [[Box.mk 0 0 4 4]] [[0]] [[true]] none)
        (VOCOutputs.mk [[0, 9/10, 0, 0, 4, 4]] [1])
      = vocUpdate (vocInit 1 (1/2) .elevenPoint false true)
        (VOCInputs.mk [[Box.mk 0 0 4 4]] [[0]] [[false]] none)
        (VOCOutputs.mk [[0, 9/10, 0, 0, 4, 4]] [1]) :=
  ⟨rfl, voc_update_ignores_difficult _ _ _ _ _ _ _ rfl⟩

/-- Dividing a box by the all-ones factor leaves it unchanged. -/
theorem divBox_one (b : Box) : divBox (1, 1) b = b := by
  simp [divBox]

/-- C5: in `VOCMetric.update`, image `i`'s ground-truth boxes are divided
componentwise by `(w, h, w, h)` — the scale factor supplying `(h, w)` —
before being pruned and passed to `DetectionMAP.update`; and when the
inputs carry no scale factor, a factor of all ones is used, so the
ground-truth boxes are forwarded unchanged. -/
theorem voc_update_scales_gt (ed : Bool) (inputs : VOCInputs)
    (outputs : VOCOutputs) (i : ℕ) (hi : i < inputs.gt_bbox.length) :
    (∀ sf h w, inputs.scale_factor = some sf → sf.getD i (1, 1) = (h, w) →
      ((vocUpdateArgs ed inputs outputs).map DetArgs.gt_box)[i]?
        = some (pruneZeroPadding
            ((inputs.gt_bbox.getD i []).map (fun b =>
              Box.mk (b.xmin / w) (b.ymin / h) (b.xmax / w) (b.ymax / h)))
            (inputs.gt_class.getD i [])
            ((if ed then none else some inputs.difficult).map
              (fun ds => ds.getD i []))).1) ∧
    (inputs.scale_factor = none →
      ((vocUpdateArgs ed inputs outputs).map DetArgs.gt_box)[i]?
        = some (pruneZeroPadding (inputs.gt_bbox.getD i [])
            (inputs.gt_class.getD i [])
            ((if ed then none else some inputs.difficult).map
              (fun ds => ds.getD i []))).1) := by
  constructor
  · intro sf h w hsf hhw
    simp only [vocUpdateArgs, hsf, Option.getD_some, List.getElem?_map,
      List.getElem?_range, hi, if_pos, dite_eq_ite, Option.map_some]
    have hhw2 : sf[i]?.getD 1 = (h, w) :=
      (List.getD_eq_getElem?_getD sf i (1, 1)).symm.trans hhw
    simp [divBox, hhw2]
  · intro hsf
    simp only [vocUpdateArgs, hsf, Option.getD_none, List.getElem?_map,
      List.getElem?_range, hi, if_pos, dite_eq_ite, Option.map_some]
    have hrep : (List.replicate inputs.gt_bbox.length ((1 : ℚ), (1 : ℚ))).getD i (1, 1)
        = (1, 1) := by
      simp [List.getD_eq_getElem?_getD]
    simp [hrep, show ∀ b, divBox 1 b = b from fun b => divBox_one b]

/-- Witness for C5: a scale factor of (h, w) = (2, 4) divides the single
ground-truth box (4, 2, 8, 6) into (1, 1, 2, 3). -/
theorem voc_update_scales_gt_witness :
    0 < (VOCInputs.mk [[Box.mk 4 2 8 6]] [[0]] [[false]]
          (some [(2, 4)])).gt_bbox.length ∧
    ((vocUpdateArgs false
        (VOCInputs.mk [[Box.mk 4 2 8 6]] [[0]] [[false]] (some [(2, 4)]))
        (VOCOutputs.mk [[0, 1, 0, 0, 1, 1]] [1])).map DetArgs.gt_box)[0]?
      = some (pruneZeroPadding
          (((VOCInputs.mk [[Box.mk 4 2 8 6]] [[0]] [[false]]
              (some [(2, 4)])).gt_bbox.getD 0 []).map (fun b =>
            Box.mk (b.xmin / 4) (b.ymin / 2) (b.xmax / 4) (b.ymax / 2)))
          ((VOCInputs.mk [[Box.mk 4 2 8 6]] [[0]] [[false]]
              (some [(2, 4)])).gt_class.getD 0 [])
          ((if false then none
            else some (VOCInputs.mk [[Box.mk 4 2 8 6]] [[0]] [[false]]
              (some [(2, 4)])).difficult).map (fun ds => ds.getD 0 []))).1 :=
  ⟨by decide,
    (voc_update_scales_gt false
      (VOCInputs.mk [[Box.mk 4 2 8 6]] [[0]] [[false]] (some [(2, 4)]))
      (VOCOutputs.mk [[0, 1, 0, 0, 1, 1]] [1]) 0 (by decide)).1
      [(2, 4)] 2 4 rfl rfl⟩

/-- Indexing a map over `List.range` below the bound. -/
theorem getD_map_range {α : Type} (f : ℕ → α) (d : α) (n c : ℕ) (h : c < n) :
    ((List.range n).map f).getD c d = f c := by
  rw [List.getD_eq_getElem?_getD]
  simp [List.getElem?_map, List.getElem?_range, h]

/-- One `update` distributes over a merge on the right: appending the same
image contribution after merged records equals merging with the records
that received the contribution. -/
theorem detMapUpdate_merge (a b : DetectionMAP) (img : DetArgs)
    (hcfg : b.cfg = a.cfg) :
    detMapUpdate (mergeRecords a b) img = mergeRecords a (detMapUpdate b img) := by
  obtain ⟨acfg, al, ac, am⟩ := a
  obtain ⟨bcfg, bl, bc, bm⟩ := b
  simp only at hcfg
  subst hcfg
  simp only [detMapUpdate, mergeRecords, DetectionMAP.mk.injEq]
  refine ⟨trivial, ?_, ?_, trivial⟩
  · apply List.map_congr_left
    intro c hc
    rw [getD_map_range _ _ _ _ (List.mem_range.mp hc),
        getD_map_range _ _ _ _ (List.mem_range.mp hc),
        List.append_assoc]
  · apply List.map_congr_left
    intro c hc
    rw [getD_map_range _ _ _ _ (List.mem_range.mp hc),
        getD_map_range _ _ _ _ (List.mem_range.mp hc),
        Nat.add_assoc]

/-- A run of updates distributes over a merge on the right. -/
theorem procImgs_merge (a b : DetectionMAP) (D : List DetArgs)
    (hcfg : b.cfg = a.cfg) :
    procImgs (mergeRecords a b) D = mergeRecords a (procImgs b D) := by
  induction D generalizing b with
  | nil => rfl
  | cons img rest ih =>
      show procImgs (detMapUpdate (mergeRecords a b) img) rest = _
      rw [detMapUpdate_merge a b img hcfg]
      exact ih (detMapUpdate b img) ((cfg_detMapUpdate b img).trans hcfg)

/-- Any state reached from a reset keeps one record list and one count per
class. -/
theorem procImgs_shape (s : DetectionMAP) (D : List DetArgs)
    (h₁ : s.class_score_poss.length = s.cfg.class_num)
    (h₂ : s.class_gt_counts.length = s.cfg.class_num) :
    (procImgs s D).class_score_poss.length = (procImgs s D).cfg.class_num ∧
    (procImgs s D).class_gt_counts.length = (procImgs s D).cfg.class_num := by
  induction D generalizing s with
  | nil => exact ⟨h₁, h₂⟩
  | cons img rest ih =>
      exact ih (detMapUpdate s img) (by simp [detMapUpdate]) (by simp [detMapUpdate])

/-- Merging with a freshly reset accumulator on the right is the identity. -/
theorem merge_reset_right (x : DetectionMAP)
    (hl : x.class_score_poss.length = x.cfg.class_num)
    (hc : x.class_gt_counts.length = x.cfg.class_num)
    (hm : x.mAP = none) :
    mergeRecords x (detReset0 x.cfg) = x := by
  obtain ⟨cfg, l, c, m⟩ := x
  simp only at hl hc hm
  subst hm
  simp only [mergeRecords, detReset0, DetectionMAP.mk.injEq]
  refine ⟨trivial, ?_, ?_, trivial⟩
  · apply List.ext_getElem?
    intro i
    by_cases h : i < cfg.class_num
    · have hi : i < l.length := by rw [hl]; exact h
      simp [List.getElem?_map, List.getElem?_range, h, List.getElem?_eq_getElem hi,
        List.getD_eq_getElem?_getD, List.getElem?_replicate]
    · have hge : cfg.class_num ≤ i := le_of_not_lt h
      have hi : l.length ≤ i := hl ▸ hge
      simp [List.getElem?_map, List.getElem?_range, h, List.getElem?_eq_none hi, hge]
  · apply List.ext_getElem?
    intro i
    by_cases h : i < cfg.class_num
    · have hi : i < c.length := by rw [hc]; exact h
      simp [List.getElem?_map, List.getElem?_range, h, List.getElem?_eq_getElem hi,
        List.getD_eq_getElem?_getD, List.getElem?_replicate]
    · have hge : cfg.class_num ≤ i := le_of_not_lt h
      have hi : c.length ≤ i := hc ▸ hge
      simp [List.getElem?_map, List.getElem?_range, h, List.getElem?_eq_none hi, hge]

/-- A run over a concatenation is the composition of the runs. -/
theorem procImgs_append (s : DetectionMAP) (D1 D2 : List DetArgs) :
    procImgs s (D1 ++ D2) = procImgs (procImgs s D1) D2 := by
  simp [procImgs, List.foldl_append]

/-- C4 (amended): splitting a dataset into two halves, accumulating each
half into separate per-class records, then concatenating the per-class
lists (first half before second) and summing the ground-truth counts before
a single `accumulate`, yields exactly the state — hence the same per-class
records, AP and mAP — of accumulating the whole dataset in one pass in that
same first-then-second order. -/
theorem voc_merge_halves (cfg : MapConfig) (D1 D2 : List DetArgs) :
    detAccumulate (mergeRecords (procImgs (detReset0 cfg) D1)
        (procImgs (detReset0 cfg) D2))
      = detAccumulate (procImgs (detReset0 cfg) (D1 ++ D2)) := by
  have hcfg1 : (procImgs (detReset0 cfg) D1).cfg = cfg :=
    (cfg_procImgs _ _).trans rfl
  congr 1
  rw [procImgs_append]
  rw [← procImgs_merge (procImgs (detReset0 cfg) D1) (detReset0 cfg) D2
    (show (detReset0 cfg).cfg = _ from hcfg1.symm)]
  have hsh := procImgs_shape (detReset0 cfg) D1 (by simp [detReset0])
    (by simp [detReset0])
  have hm : (procImgs (detReset0 cfg) D1).mAP = none :=
    (mAP_procImgs _ _).trans rfl
  have hkey : mergeRecords (procImgs (detReset0 cfg) D1)
      (detReset0 (procImgs (detReset0 cfg) D1).cfg) = procImgs (detReset0 cfg) D1 :=
    merge_reset_right _ hsh.1 hsh.2 hm
  rw [hcfg1] at hkey
  rw [hkey]

/-- C4 (counterexample): with one class, threshold 1/2 and 11-point mode,
image A holds one ground-truth box with one exactly matching score-1/2
prediction and image B holds one score-1/2 false positive.  Merging the two
singleton halves (A's records before B's) and accumulating gives mAP 1,
while accumulating the whole dataset in the insertion order B then A gives
mAP 1/2: with tied scores the result depends on insertion order, so the
claimed order-independence fails. -/
theorem voc_merge_order_counterexample :
    detGetMap (detAccumulate (mergeRecords (procImgs (detReset0 c4Cfg) [c4ImgA])
        (procImgs (detReset0 c4Cfg) [c4ImgB])))
      = some 1 ∧
    detGetMap (detAccumulate (procImgs (detReset0 c4Cfg) [c4ImgB, c4ImgA]))
      = some (1/2) ∧
    detGetMap (detAccumulate (mergeRecords (procImgs (detReset0 c4Cfg) [c4ImgA])
        (procImgs (detReset0 c4Cfg) [c4ImgB])))
      ≠ detGetMap (detAccumulate (procImgs (detReset0 c4Cfg) [c4ImgB, c4ImgA])) := by
  have h1 : detGetMap (detAccumulate (mergeRecords
      (procImgs (detReset0 c4Cfg) [c4ImgA]) (procImgs (detReset0 c4Cfg) [c4ImgB])))
      = some 1 := by with_unfolding_all rfl
  have h2 : detGetMap (detAccumulate (procImgs (detReset0 c4Cfg) [c4ImgB, c4ImgA]))
      = some (1/2) := by with_unfolding_all rfl
  refine ⟨h1, h2, ?_⟩
  rw [h1, h2]
  intro hcontra
  have : (1 : ℚ) = 1/2 := Option.some.inj hcontra
  norm_num at this

/-- Stable insertion does not change any predicate count. -/
theorem countP_insertDesc (p : ℚ × Bool → Bool) (x : ℚ × Bool)
    (l : List (ℚ × Bool)) :
    (insertDesc x l).countP p = (x :: l).countP p := by
  induction l with
  | nil => rfl
  | cons y ys ih =>
      rw [insertDesc]
      split
      · simp only [List.countP_cons, ih, List.countP_cons]
        omega
      · rfl

/-- The stable sort does not change any predicate count; in particular the
total number of true positives of a class record is kept. -/
theorem countP_sortDesc (p : ℚ × Bool → Bool) (l : List (ℚ × Bool)) :
    (sortDesc l).countP p = l.countP p := by
  induction l with
  | nil => rfl
  | cons x xs ih =>
      show (insertDesc x (sortDesc xs)).countP p = _
      rw [countP_insertDesc, List.countP_cons, List.countP_cons, ih]

/-- `bestUnmatched` only ever selects an unmatched ground-truth box. -/
theorem bestUnmatched_unmatched (norm : Bool) (p : Box) (gts : List MGt)
    (j : ℕ) (v : ℚ) (h : bestUnmatched norm p gts = some (j, v)) :
    ∃ g, gts.get? j = some g ∧ g.matched = false := by
  induction gts generalizing j v with
  | nil => simp [bestUnmatched] at h
  | cons g gs ih =>
      rw [bestUnmatched] at h
      cases hrec : bestUnmatched norm p gs with
      | none =>
          rw [hrec] at h
          by_cases hm : g.matched
          · simp [hm] at h
          · simp only [hm, if_false, Bool.false_eq_true] at h
            obtain ⟨hj, _⟩ := Prod.mk.injEq .. ▸ Option.some.inj h
            exact ⟨g, by simp [← hj], Bool.eq_false_iff.mpr hm⟩
      | some jw =>
          obtain ⟨j', w⟩ := jw
          rw [hrec] at h
          by_cases hm : g.matched
          · simp only [hm, if_true] at h
            obtain ⟨hj, _⟩ := Prod.mk.injEq .. ▸ Option.some.inj h
            obtain ⟨g₀, hg₀, hum⟩ := ih j' w hrec
            exact ⟨g₀, by rw [← hj]; simpa using hg₀, hum⟩
          · simp only [hm, Bool.false_eq_true, if_false] at h
            by_cases hlt : iou norm p g.box < w
            · rw [if_pos hlt] at h
              obtain ⟨hj, _⟩ := Prod.mk.injEq .. ▸ Option.some.inj h
              obtain ⟨g₀, hg₀, hum⟩ := ih j' w hrec
              exact ⟨g₀, by rw [← hj]; simpa using hg₀, hum⟩
            · rw [if_neg hlt] at h
              obtain ⟨hj, _⟩ := Prod.mk.injEq .. ▸ Option.some.inj h
              exact ⟨g, by simp [← hj], Bool.eq_false_iff.mpr hm⟩

/-- Replacing an element by one with the same predicate value keeps the
count. -/
theorem countP_set_eq {α : Type} (q : α → Bool) (l : List α) (i : ℕ)
    (g g' : α) (hget : l.get? i = some g) (hq : q g' = q g) :
    (l.set i g').countP q = l.countP q := by
  induction l generalizing i with
  | nil => simp at hget
  | cons a as ih =>
      cases i with
      | zero =>
          have : a = g := Option.some.inj (by simpa using hget)
          subst this
          simp [List.countP_cons, hq]
      | succ n =>
          have := ih n (by simpa using hget)
          simp [List.countP_cons, this]

/-- Replacing a non-counted element by a counted one raises the count by
one. -/
theorem countP_set_succ {α : Type} (q : α → Bool) (l : List α) (i : ℕ)
    (g g' : α) (hget : l.get? i = some g) (hfalse : q g = false)
    (htrue : q g' = true) :
    (l.set i g').countP q = l.countP q + 1 := by
  induction l generalizing i with
  | nil => simp at hget
  | cons a as ih =>
      cases i with
      | zero =>
          have : a = g := Option.some.inj (by simpa using hget)
          subst this
          simp [List.countP_cons, hfalse, htrue]
      | succ n =>
          have := ih n (by simpa using hget)
          simp [List.countP_cons, this]
          omega

/-- Modelled from the spec (§3, invariant): over one image and one class,
the matcher emits at most as many true positives as there are counted
(non-difficult unless configured otherwise), not-yet-matched ground-truth
boxes: each true positive marks a distinct counted box as matched. -/
theorem matchPreds_tp_le (cfg : MapConfig) (ps : List Detection)
    (gts : List MGt) :
    (matchPreds cfg ps gts).countP (fun x => x.2)
      + gts.countP (fun g => g.matched && gtCounts cfg.evaluate_difficult g)
      ≤ gts.countP (fun g => gtCounts cfg.evaluate_difficult g) := by
  induction ps generalizing gts with
  | nil =>
      have := List.countP_mono_left (l := gts)
        (p := fun g => g.matched && gtCounts cfg.evaluate_difficult g)
        (q := fun g => gtCounts cfg.evaluate_difficult g)
        (fun g hg h => by simp at h; exact h.2)
      rw [matchPreds]
      simpa using this
  | cons p ps ih =>
      rw [matchPreds]
      cases hbu : bestUnmatched cfg.is_bbox_normalized p.box gts with
      | none =>
          dsimp only
          simp only [List.countP_cons]
          simpa using ih gts
      | some jv =>
          obtain ⟨j, v⟩ := jv
          dsimp only
          by_cases hth : cfg.overlap_thresh ≤ v
          · rw [if_pos hth]
            cases hget : gts.get? j with
            | none =>
                dsimp only
                simp only [List.countP_cons]
                simpa using ih gts
            | some g =>
                dsimp only
                by_cases hd : g.difficult && !cfg.evaluate_difficult
                · rw [if_pos hd]
                  exact ih gts
                · rw [if_neg hd]
                  obtain ⟨g₀, hget₀, hunm⟩ :=
                    bestUnmatched_unmatched _ _ _ _ _ hbu
                  have hgg : g₀ = g := Option.some.inj (hget₀.symm.trans hget)
                  have hmatched : g.matched = false := hgg ▸ hunm
                  have hcounted : gtCounts cfg.evaluate_difficult g = true := by
                    revert hd
                    cases hdif : g.difficult <;>
                      cases hed : cfg.evaluate_difficult <;> simp_all [gtCounts]
                  have hmc_new := countP_set_succ
                    (fun g => g.matched && gtCounts cfg.evaluate_difficult g)
                    gts j g { g with matched := true } hget
                    (by simp [hmatched]) (by simpa [gtCounts] using hcounted)
                  have hcc_new := countP_set_eq
                    (fun g => gtCounts cfg.evaluate_difficult g)
                    gts j g { g with matched := true } hget (by simp [gtCounts])
                  have hrec := ih (gts.set j { g with matched := true })
                  rw [hmc_new, hcc_new] at hrec
                  simp only [List.countP_cons, if_true]
                  omega
          · rw [if_neg hth]
            simp only [List.countP_cons]
            simpa using ih gts

/-- At the start of one image's evaluation every ground-truth box of the
class is unmatched. -/
theorem classMGts_unmatched (ed : Bool) (c : ℕ) (gts : List GtIn) :
    (classMGts c gts).countP (fun g => g.matched && gtCounts ed g) = 0 := by
  rw [List.countP_eq_zero]
  intro g hg
  obtain ⟨g', hg', rfl⟩ := List.mem_map.mp hg
  simp

/-- One `update` preserves the per-class invariant: true positives recorded
for a class never exceed that class's ground-truth total. -/
theorem detMapUpdate_tp_le (s : DetectionMAP) (a : DetArgs) (c : ℕ)
    (h : (s.class_score_poss.getD c []).countP (fun x => x.2)
      ≤ s.class_gt_counts.getD c 0) :
    ((detMapUpdate s a).class_score_poss.getD c []).countP (fun x => x.2)
      ≤ (detMapUpdate s a).class_gt_counts.getD c 0 := by
  by_cases hc : c < s.cfg.class_num
  · simp only [detMapUpdate]
    rw [getD_map_range _ _ _ _ hc, getD_map_range _ _ _ _ hc,
      List.countP_append]
    have hm := matchPreds_tp_le s.cfg (classPreds c (updatePreds a))
      (classMGts c (updateGts a))
    rw [classMGts_unmatched] at hm
    exact Nat.add_le_add h (by simpa [imageClassRecord, imageClassGtCount] using hm)
  · simp only [detMapUpdate]
    rw [List.getD_eq_default, List.getD_eq_default]
    · simp
    · simpa using le_of_not_lt hc
    · simpa using le_of_not_lt hc

/-- Modelled from the spec (§3, invariant): in every state reached from a
reset by a run of updates, each class's recorded true positives are at most
its accumulated ground-truth count. -/
theorem procImgs_tp_le (cfg : MapConfig) (D : List DetArgs) (c : ℕ) :
    ((procImgs (detReset0 cfg) D).class_score_poss.getD c []).countP (fun x => x.2)
      ≤ (procImgs (detReset0 cfg) D).class_gt_counts.getD c 0 := by
  have main : ∀ (l : List DetArgs) (s : DetectionMAP),
      (∀ c, (s.class_score_poss.getD c []).countP (fun x => x.2)
        ≤ s.class_gt_counts.getD c 0) →
      ∀ c, ((procImgs s l).class_score_poss.getD c []).countP (fun x => x.2)
        ≤ (procImgs s l).class_gt_counts.getD c 0 := by
    intro l
    induction l with
    | nil => intro s h c; exact h c
    | cons a rest ih =>
        intro s h c
        exact ih (detMapUpdate s a) (fun c => detMapUpdate_tp_le s a c (h c)) c
  refine main D (detReset0 cfg) (fun c => ?_) c
  by_cases hc : c < cfg.class_num <;>
    simp [detReset0, List.getD_eq_getElem?_getD, List.getElem?_replicate, hc]

/-- The seed is a lower bound of a running maximum. -/
theorem le_foldr_max (a : ℚ) (l : List ℚ) : a ≤ l.foldr max a := by
  induction l with
  | nil => exact le_refl a
  | cons x xs ih => exact le_trans ih (le_max_right x _)

/-- A running maximum of bounded values over a bounded seed is bounded. -/
theorem foldr_max_le (a b : ℚ) (l : List ℚ) (ha : a ≤ b)
    (hl : ∀ x ∈ l, x ≤ b) : l.foldr max a ≤ b := by
  induction l with
  | nil => exact ha
  | cons x xs ih =>
      exact max_le (hl x (List.mem_cons_self x xs))
        (ih fun y hy => hl y (List.mem_cons_of_mem x hy))

/-- Every precision on the curve lies in [0, 1], and recalls are
nonnegative: precision is cumulative_TP over the positive rank count. -/
theorem prPoints_mem_bounds (g tp fp : ℕ) (l : List (ℚ × Bool)) :
    ∀ x ∈ prPoints g tp fp l, 0 ≤ x.1 ∧ 0 ≤ x.2 ∧ x.2 ≤ 1 := by
  induction l generalizing tp fp with
  | nil => simp [prPoints]
  | cons y ys ih =>
      intro x hx
      rw [prPoints] at hx
      rcases List.mem_cons.mp hx with hx | hx
      · subst hx
        refine ⟨by positivity, by positivity, ?_⟩
        cases hy : y.2 <;> simp only [hy, if_true, if_false] <;>
          · rw [div_le_one (by push_cast; linarith)]
            push_cast
            linarith
      · exact ih _ _ x hx

/-- Modelled from the spec (§3, invariant): when the true positives in the
remaining record cannot exceed the ground-truth total, every recall on the
curve is at most 1. -/
theorem prPoints_recall_le (g tp fp : ℕ) (l : List (ℚ × Bool))
    (h : tp + l.countP (fun x => x.2) ≤ g) :
    ∀ x ∈ prPoints g tp fp l, x.1 ≤ 1 := by
  induction l generalizing tp fp with
  | nil => simp [prPoints]
  | cons y ys ih =>
      intro x hx
      rw [prPoints] at hx
      rw [List.countP_cons] at h
      rcases List.mem_cons.mp hx with hx | hx
      · subst hx
        by_cases hg : g = 0
        · subst hg
          simp
        · have hgpos : (0 : ℚ) < (g : ℚ) := by
            exact_mod_cast Nat.pos_of_ne_zero hg
          rw [div_le_one hgpos]
          have hle : (if y.2 then tp + 1 else tp) ≤ g := by
            cases hy : y.2 <;> simp [hy] at h ⊢ <;> omega
          exact_mod_cast hle
      · refine ih _ (if y.2 then fp else fp + 1) ?_ x hx
        cases hy : y.2 <;> simp [hy] at h ⊢ <;> omega

/-- The recalls of the curve are nondecreasing, starting from the entry
recall. -/
theorem prPoints_recMono (g tp fp : ℕ) (l : List (ℚ × Bool)) :
    recMono ((tp : ℚ) / (g : ℚ)) (prPoints g tp fp l) := by
  induction l generalizing tp fp with
  | nil => simp [prPoints, recMono]
  | cons y ys ih =>
      rw [prPoints]
      refine ⟨?_, ih _ _⟩
      apply div_le_div_of_nonneg_right _ (by positivity)
      cases hy : y.2 <;> simp

/-- The monotone envelope keeps the recall chain. -/
theorem recMono_envPrec (prev : ℚ) (l : List (ℚ × ℚ))
    (h : recMono prev l) : recMono prev (envPrec l) := by
  induction l generalizing prev with
  | nil => simp [envPrec, recMono]
  | cons x rest ih =>
      rw [envPrec]
      exact ⟨h.1, ih x.1 h.2⟩

/-- The monotone envelope keeps precisions in [0, 1] and recalls at most
1. -/
theorem envPrec_mem_bounds (l : List (ℚ × ℚ))
    (h : ∀ x ∈ l, 0 ≤ x.2 ∧ x.2 ≤ 1) (hr : ∀ x ∈ l, x.1 ≤ 1) :
    ∀ y ∈ envPrec l, (0 ≤ y.2 ∧ y.2 ≤ 1) ∧ y.1 ≤ 1 := by
  induction l with
  | nil => simp [envPrec]
  | cons x rest ih =>
      have hrest := ih (fun z hz => h z (List.mem_cons_of_mem x hz))
        (fun z hz => hr z (List.mem_cons_of_mem x hz))
      intro y hy
      rw [envPrec] at hy
      rcases List.mem_cons.mp hy with hy | hy
      · subst hy
        refine ⟨⟨?_, ?_⟩, hr x (List.mem_cons_self x rest)⟩
        · exact le_trans (h x (List.mem_cons_self x rest)).1 (le_foldr_max _ _)
        · apply foldr_max_le _ _ _ (h x (List.mem_cons_self x rest)).2
          intro z hz
          obtain ⟨y', hy', rfl⟩ := List.mem_map.mp hz
          exact (hrest y' hy').1.2
      · exact hrest y hy

/-- The integral of a monotone-recall curve with precisions in [0, 1] and
recalls at most 1 adds at most `1 - prev` to the running sum, and never
decreases it. -/
theorem integrate_bounds (l : List (ℚ × ℚ)) (prev acc : ℚ) (hprev : prev ≤ 1)
    (hl : ∀ x ∈ l, (0 ≤ x.2 ∧ x.2 ≤ 1) ∧ x.1 ≤ 1) (hm : recMono prev l) :
    acc ≤ integrate prev acc l ∧ integrate prev acc l ≤ acc + (1 - prev) := by
  induction l generalizing prev acc with
  | nil =>
      rw [integrate]
      exact ⟨le_refl acc, by linarith⟩
  | cons x rest ih =>
      have hx := hl x (List.mem_cons_self x rest)
      have hrest : ∀ z ∈ rest, (0 ≤ z.2 ∧ z.2 ≤ 1) ∧ z.1 ≤ 1 :=
        fun z hz => hl z (List.mem_cons_of_mem x hz)
      rw [integrate]
      by_cases hne : x.1 ≠ prev
      · rw [if_pos hne]
        have hstep := ih x.1 (acc + x.2 * (x.1 - prev)) hx.2 hrest hm.2
        have hd : 0 ≤ x.1 - prev := sub_nonneg.mpr hm.1
        have hterm1 : 0 ≤ x.2 * (x.1 - prev) := mul_nonneg hx.1.1 hd
        have hterm2 : x.2 * (x.1 - prev) ≤ x.1 - prev := by
          have := mul_le_mul_of_nonneg_right hx.1.2 hd
          linarith
        exact ⟨by linarith [hstep.1], by linarith [hstep.2]⟩
      · rw [if_neg hne]
        have hxp : x.1 = prev := not_not.mp hne
        exact ih prev acc hprev hrest (hxp ▸ hm.2)

/-- The best precision at recall at least `r` lies in [0, 1]. -/
theorem maxPrecAt_bounds (r : ℚ) (l : List (ℚ × ℚ))
    (h : ∀ x ∈ l, 0 ≤ x.2 ∧ x.2 ≤ 1) :
    0 ≤ maxPrecAt r l ∧ maxPrecAt r l ≤ 1 := by
  constructor
  · exact le_foldr_max 0 _
  · apply foldr_max_le _ _ _ (by norm_num)
    intro z hz
    obtain ⟨y, hy, rfl⟩ := List.mem_map.mp hz
    exact (h y (List.mem_filter.mp hy).1).2

/-- 11-point average precision lies in [0, 1] whenever all precisions do. -/
theorem ap11_bounds (l : List (ℚ × ℚ))
    (h : ∀ x ∈ l, 0 ≤ x.2 ∧ x.2 ≤ 1) :
    0 ≤ ap11 l ∧ ap11 l ≤ 1 := by
  have h1 : ∀ t ∈ (List.range 11).map (fun j : ℕ => maxPrecAt ((j : ℚ) / 10) l), 0 ≤ t := by
    intro t ht
    obtain ⟨j, hj, rfl⟩ := List.mem_map.mp ht
    exact (maxPrecAt_bounds _ _ h).1
  have h2 : ∀ t ∈ (List.range 11).map (fun j : ℕ => maxPrecAt ((j : ℚ) / 10) l), t ≤ 1 := by
    intro t ht
    obtain ⟨j, hj, rfl⟩ := List.mem_map.mp ht
    exact (maxPrecAt_bounds _ _ h).2
  have hs1 : 0 ≤ ((List.range 11).map (fun j : ℕ => maxPrecAt ((j : ℚ) / 10) l)).sum :=
    List.sum_nonneg h1
  have hs2 : ((List.range 11).map (fun j : ℕ => maxPrecAt ((j : ℚ) / 10) l)).sum ≤ 11 := by
    have hlen : ((List.range 11).map (fun j : ℕ => maxPrecAt ((j : ℚ) / 10) l)).length = 11 := by
      rw [List.length_map, List.length_range]
    have := List.sum_le_card_nsmul
      ((List.range 11).map (fun j : ℕ => maxPrecAt ((j : ℚ) / 10) l)) 1 h2
    rw [hlen, nsmul_eq_mul, mul_one] at this
    exact_mod_cast this
  rw [ap11]
  constructor
  · positivity
  · rw [div_le_one (by norm_num)]
    exact hs2

/-- Modelled from the spec (§4.3): under the per-class invariant that true
positives cannot exceed the ground-truth total, the class's average
precision lies in [0, 1] for both interpolation modes. -/
theorem classAP_bounds (cfg : MapConfig) (g : ℕ) (recs : List (ℚ × Bool))
    (h : recs.countP (fun x => x.2) ≤ g) :
    0 ≤ classAP cfg g recs ∧ classAP cfg g recs ≤ 1 := by
  have hcnt : (sortDesc recs).countP (fun x => x.2) ≤ g := by
    rw [countP_sortDesc]; exact h
  have hb := prPoints_mem_bounds g 0 0 (sortDesc recs)
  have hrec := prPoints_recall_le g 0 0 (sortDesc recs) (by simpa using hcnt)
  rw [classAP]
  cases hmt : cfg.map_type with
  | elevenPoint =>
      exact ap11_bounds _ (fun x hx => ⟨(hb x hx).2.1, (hb x hx).2.2⟩)
  | integral =>
      have hm : recMono 0 (prPoints g 0 0 (sortDesc recs)) := by
        have := prPoints_recMono g 0 0 (sortDesc recs)
        simpa using this
      have henvb := envPrec_mem_bounds _
        (fun x hx => ⟨(hb x hx).2.1, (hb x hx).2.2⟩) hrec
      have henvm := recMono_envPrec 0 _ hm
      have hi := integrate_bounds (envPrec (prPoints g 0 0 (sortDesc recs)))
        0 0 (by norm_num) henvb henvm
      exact ⟨hi.1, by linarith [hi.2]⟩

/-- The accumulation loop of `computeMAP` sums the average precisions of
the classes with ground truth and counts them. -/
theorem computeMAP_foldl (s : DetectionMAP) (cs : List ℕ) (a : ℚ) (n : ℕ) :
    cs.foldl (fun (acc : ℚ × ℕ) c =>
        if s.class_gt_counts.getD c 0 = 0 then acc
        else (acc.1 + perClassAP s c, acc.2 + 1)) (a, n)
      = (a + ((cs.filter (fun c => decide (0 < s.class_gt_counts.getD c 0))).map
            (perClassAP s)).sum,
         n + (cs.filter (fun c => decide (0 < s.class_gt_counts.getD c 0))).length) := by
  induction cs generalizing a n with
  | nil => simp
  | cons c rest ih =>
      by_cases hc : s.class_gt_counts.getD c 0 = 0
      · rw [List.foldl_cons, if_pos hc, ih]
        simp only [List.filter_cons, decide_eq_true_eq]
        rw [if_neg (by omega)]
      · rw [List.foldl_cons, if_neg hc, ih]
        simp only [List.filter_cons, decide_eq_true_eq]
        rw [if_pos (Nat.pos_of_ne_zero hc)]
        simp only [List.map_cons, List.sum_cons, List.length_cons, Prod.mk.injEq]
        constructor
        · ring
        · omega

/-- `computeMAP` is the unweighted mean of the per-class average precisions
over exactly the classes holding at least one ground-truth instance (and 0,
by the division convention, when there is no such class). -/
theorem computeMAP_eq_mean (s : DetectionMAP) :
    computeMAP s
      = (((List.range s.cfg.class_num).filter
            (fun c => decide (0 < s.class_gt_counts.getD c 0))).map (perClassAP s)).sum
        / ((((List.range s.cfg.class_num).filter
            (fun c => decide (0 < s.class_gt_counts.getD c 0))).length : ℕ) : ℚ) := by
  simp only [computeMAP, computeMAP_foldl, Nat.zero_add, zero_add]
  by_cases hlen : ((List.range s.cfg.class_num).filter
      (fun c => decide (0 < s.class_gt_counts.getD c 0))).length = 0
  · rw [if_pos hlen]
    have hfil := List.length_eq_zero.mp hlen
    rw [hfil]
    simp only [List.map_nil, List.sum_nil, List.length_nil, Nat.cast_zero]
    rw [zero_div]
  · rw [if_neg hlen]

/-- C2: for every evaluation run (a reset followed by any updates), every
per-class average precision lies in [0, 1], and the computed mAP equals the
unweighted arithmetic mean of the per-class average precisions over exactly
the classes with at least one ground-truth instance. -/
theorem voc_ap_bounds_and_map_mean (cfg : MapConfig) (D : List DetArgs) :
    (∀ c, 0 ≤ perClassAP (procImgs (detReset0 cfg) D) c ∧
        perClassAP (procImgs (detReset0 cfg) D) c ≤ 1) ∧
    computeMAP (procImgs (detReset0 cfg) D)
      = (((List.range cfg.class_num).filter
            (fun c => decide (0 < (procImgs (detReset0 cfg) D).class_gt_counts.getD c 0))).map
          (perClassAP (procImgs (detReset0 cfg) D))).sum
        / ((((List.range cfg.class_num).filter
            (fun c => decide (0 < (procImgs (detReset0 cfg) D).class_gt_counts.getD c 0))).length : ℕ) : ℚ) := by
  constructor
  · intro c
    exact classAP_bounds _ _ _ (procImgs_tp_le cfg D c)
  · have hmean := computeMAP_eq_mean (procImgs (detReset0 cfg) D)
    rw [cfg_procImgs] at hmean
    simpa [detReset0] using hmean
